import Mathlib

/-!
Verification of the family-graph extraction core of the family-tree plugin
(`src/main (copy).ts`): the relationship-section text matcher (`parseParents`),
the entity reconciliation passes inside `loadPeople`, the parent/child link
builder (`buildFamilyLinks`), and the gender heuristic (`determineGender`).

Strings are modelled as Lean `String`s (lists of unicode characters); every
text-matching routine is a direct operational translation of the JavaScript
regular expression it embeds, with the backtracking behaviour of the specific
pattern reproduced explicitly (the patterns are simple enough that greedy or
lazy repetition resolves deterministically except for the whitespace run
before a required newline, which is handled by `wsThenNl`).
-/

namespace FamilyTree

/-- Character class of the JavaScript regex `\s` (also the set trimmed by
`String.prototype.trim`): ASCII whitespace, NBSP, BOM, and the Unicode
space separators and line separators. -/
def isWs (c : Char) : Bool :=
  c = ' ' || c = '\t' || c = '\n' || c = '\r' || c = '\x0b' || c = '\x0c' ||
  c.toNat = 0xA0 || c.toNat = 0x1680 ||
  (0x2000 ≤ c.toNat && c.toNat ≤ 0x200A) ||
  c.toNat = 0x2028 || c.toNat = 0x2029 || c.toNat = 0x202F ||
  c.toNat = 0x205F || c.toNat = 0x3000 || c.toNat = 0xFEFF

/-- Character class of the JavaScript regex `.` complement: the line
terminators that a dot (without the `s` flag) does not match. -/
def isLineTerm (c : Char) : Bool :=
  c = '\n' || c = '\r' || c.toNat = 0x2028 || c.toNat = 0x2029

/-- Lower-casing on the ASCII and Cyrillic letter ranges (the only letters
appearing in the patterns `Родители`, `Мать`, `Отец` and in the
`а`/`я` name-ending heuristic), identity elsewhere. -/
def lowerRu (c : Char) : Char :=
  if 'A' ≤ c ∧ c ≤ 'Z' then Char.ofNat (c.toNat + 32)
  else if 0x410 ≤ c.toNat ∧ c.toNat ≤ 0x42F then Char.ofNat (c.toNat + 32)
  else if c.toNat = 0x401 then Char.ofNat 0x451
  else c

/-- Case-insensitive character comparison (the `i` regex flag). -/
def charCI (p c : Char) : Bool := lowerRu p = lowerRu c

/-- Match a fixed pattern case-insensitively at the head of the input,
returning the rest of the input on success. -/
def matchCI : List Char → List Char → Option (List Char)
  | [], cs => some cs
  | _ :: _, [] => none
  | p :: ps, c :: cs => if charCI p c then matchCI ps cs else none

/-- The section label `Родители` of the heading regex. -/
def parentsLabel : List Char := "Родители".data

/-- The label of the mother bullet line. -/
def motherLabel : List Char := "Мать".data

/-- The label of the father bullet line. -/
def fatherLabel : List Char := "Отец".data

/-- `#+` at the head of the input: at least one `#`, taken greedily (no
backtracking is needed because neither `\s` nor the label can consume a
`#`). -/
def matchHashes : List Char → Option (List Char)
  | '#' :: cs => some (cs.dropWhile (fun c => c = '#'))
  | _ => none

/-- The heading prefix `#+\s*Родители` (case-insensitive) at the current
position, returning the input remaining after the label.  The `\s*` is
taken greedily without backtracking because the label starts with a
non-whitespace character. -/
def matchHeadingAt (cs : List Char) : Option (List Char) :=
  match matchHashes cs with
  | none => none
  | some r => matchCI parentsLabel (r.dropWhile isWs)

/-- The regex fragment `\s*\n`: a greedy whitespace run followed by a
mandatory newline.  With backtracking this succeeds exactly when the
maximal whitespace run contains a newline, consuming through the *last*
newline of the run. -/
def wsThenNl : List Char → Option (List Char)
  | [] => none
  | c :: cs =>
    if c = '\n' then
      match wsThenNl cs with
      | some r => some r
      | none => some cs
    else if isWs c then wsThenNl cs
    else none

/-- The full heading `#+\s*Родители\s*\n` at the current position. -/
def matchFullHeadingAt (cs : List Char) : Option (List Char) :=
  (matchHeadingAt cs).bind wsThenNl

/-- Scan for the first full heading starting right after a newline
(the `\n` branch of the `(^|\n)` group), in input order. -/
def findHeadingAux : List Char → Option (List Char)
  | [] => none
  | c :: cs =>
    if c = '\n' then
      match matchFullHeadingAt cs with
      | some r => some r
      | none => findHeadingAux cs
    else findHeadingAux cs

/-- Leftmost match of `(^|\n)#+\s*Родители\s*\n` (flag `i`): the `^`
branch at the start of the string, then after each newline. -/
def findHeading (cs : List Char) : Option (List Char) :=
  match matchFullHeadingAt cs with
  | some r => some r
  | none => findHeadingAux cs

/-- The capture `([\s\S]*?)(?=\n#|$)`: everything up to (not including)
the first newline-then-`#` pair, or to the end of the string. -/
def takeSection : List Char → List Char
  | [] => []
  | c :: cs =>
    if c = '\n' ∧ cs.head? = some '#' then []
    else c :: takeSection cs

/-- Group 2 of `content.match(/(^|\n)#+\s*Родители\s*\n([\s\S]*?)(?=\n#|$)/i)`:
`none` when the document has no relationship-section heading. -/
def findParentsSection (cs : List Char) : Option (List Char) :=
  (findHeading cs).map takeSection

/-- The lazy capture `(.*?)` followed by `\]\]`: the shortest prefix of
non-line-terminator characters followed by `]]`. -/
def matchBracketCapture : List Char → Option (List Char)
  | [] => none
  | [_] => none
  | c1 :: c2 :: cs =>
    if c1 = ']' ∧ c2 = ']' then some []
    else if isLineTerm c1 then none
    else (matchBracketCapture (c2 :: cs)).map (fun r => c1 :: r)

/-- A parent bullet line `[-\*]\s*<label>\s*:\s*\[\[(.*?)\]\]`
(case-insensitive) at the current position, returning the bracket
capture.  Each `\s*` is greedy without backtracking because the
following required character is never whitespace. -/
def matchParentAt (lab : List Char) (cs : List Char) : Option (List Char) :=
  match cs with
  | [] => none
  | c :: cs1 =>
    if c = '-' ∨ c = '*' then
      match matchCI lab (cs1.dropWhile isWs) with
      | none => none
      | some r2 =>
        match r2.dropWhile isWs with
        | ':' :: r3 =>
          match r3.dropWhile isWs with
          | '[' :: '[' :: r4 => matchBracketCapture r4
          | _ => none
        | _ => none
    else none

/-- Scan for the first parent bullet starting right after a line
terminator (the multiline `^` of flag `m`). -/
def findParentAux (lab : List Char) : List Char → Option (List Char)
  | [] => none
  | c :: cs =>
    if isLineTerm c then
      match matchParentAt lab cs with
      | some r => some r
      | none => findParentAux lab cs
    else findParentAux lab cs

/-- Leftmost match of the parent bullet regex (flags `i`, `m`) inside the
captured section: at the start of the block, then after each line
terminator. -/
def findParent (lab : List Char) (cs : List Char) : Option (List Char) :=
  match matchParentAt lab cs with
  | some r => some r
  | none => findParentAux lab cs

/-- `split('|')[0]`: the segment of the capture before the first pipe. -/
def splitPipeHead : List Char → List Char
  | [] => []
  | c :: cs => if c = '|' then [] else c :: splitPipeHead cs

/-- `String.prototype.trim`: strip leading and trailing whitespace. -/
def jsTrim (cs : List Char) : List Char :=
  ((cs.dropWhile isWs).reverse.dropWhile isWs).reverse

/-- `motherLine[1].split('|')[0].trim()`: canonicalize a bracket capture
into a parent id. -/
def extractId (cap : List Char) : List Char := jsTrim (splitPipeHead cap)

/-- Result record of `parseParents`. -/
structure ParseResult where
  mother : Option String
  father : Option String
  hasSection : Bool
deriving DecidableEq

/-- `parseParents` of `main (copy).ts` (lines 101–137): locate the
relationship-section heading, capture the block up to the next
newline-then-`#`, and extract the first mother and father bullet of the
block.  An empty captured block returns early with both parents null
(the falsy-string test `!parentsSection[2]`), and `hasSection` reports
whether the heading regex matched. -/
def parseParents (content : String) : ParseResult :=
  match findParentsSection content.data with
  | none => { mother := none, father := none, hasSection := false }
  | some block =>
    if block = [] then { mother := none, father := none, hasSection := true }
    else
      { mother := (findParent motherLabel block).map (fun cap => String.mk (extractId cap)),
        father := (findParent fatherLabel block).map (fun cap => String.mk (extractId cap)),
        hasSection := true }

/-- A heading prefix `#+\s*Родители` matches at this position. -/
def headingPrefixAt (cs : List Char) : Bool := (matchHeadingAt cs).isSome

/-- Scan for a heading prefix right after some newline. -/
def hasHeadingMarkerAux : List Char → Bool
  | [] => false
  | c :: cs =>
    (if c = '\n' then headingPrefixAt cs else false) || hasHeadingMarkerAux cs

/-- The document contains a `Родители` heading marker: a heading prefix
`#+\s*Родители` at the start of the text or right after a newline
(whether or not a newline follows it). -/
def hasHeadingMarker (cs : List Char) : Bool :=
  headingPrefixAt cs || hasHeadingMarkerAux cs

/-- A heading prefix matches at this position and a newline occurs
somewhere after its label. -/
def headingNlAt (cs : List Char) : Bool :=
  match matchHeadingAt cs with
  | some rest => decide ('\n' ∈ rest)
  | none => false

/-- Scan for a newline-followed heading prefix right after some newline. -/
def headingNlScanAux : List Char → Bool
  | [] => false
  | c :: cs =>
    (if c = '\n' then headingNlAt cs else false) || headingNlScanAux cs

/-- Some `Родители` heading marker of the document has a newline after its
label. -/
def headingNl (cs : List Char) : Bool := headingNlAt cs || headingNlScanAux cs

/-- Gender values assigned by `determineGender`. -/
inductive Gender
  | male
  | female
deriving DecidableEq

/-- The `Person` record of `main (copy).ts` (lines 5–13).  `gender` is the
optional field populated lazily by the view; it is absent (`none`) on every
person produced by `loadPeople`. -/
structure Person where
  id : String
  name : String
  mother : Option String
  father : Option String
  children : List String
  hasParentsSection : Bool
  gender : Option Gender
deriving DecidableEq

/-- A corpus document: the markdown file's base name and raw text content
(the only pieces of the vault API that `loadPeople` consumes). -/
structure Doc where
  basename : String
  content : String
deriving DecidableEq

/-- Stage 1 of `loadPeople` (lines 39–70) applied to one document: a person
is registered exactly when the parsed content has a relationship section. -/
def declaredOf (d : Doc) : Option Person :=
  if (parseParents d.content).hasSection then
    some { id := d.basename, name := d.basename,
           mother := (parseParents d.content).mother,
           father := (parseParents d.content).father, children := [],
           hasParentsSection := true, gender := none }
  else none

/-- Stage 1 of `loadPeople`: register the declared people in corpus order.
No duplicate-identifier check is performed. -/
def stage1 (docs : List Doc) : List Person := docs.filterMap declaredOf

/-- `[p.mother, p.father].filter(Boolean)`: drop `null` and the empty
string (both falsy in JavaScript). -/
def truthy : Option String → List String
  | none => []
  | some s => if s = "" then [] else [s]

/-- One insertion into the insertion-ordered set built by `new Set(...)`. -/
def dedupStep (acc : List String) (s : String) : List String :=
  if s ∈ acc then acc else acc ++ [s]

/-- Insertion-ordered deduplication, as performed by `new Set(...)`:
the first occurrence of each element is kept. -/
def dedupFirst (l : List String) : List String :=
  l.foldl dedupStep []

/-- `new Set(this.people.flatMap(p => [p.mother, p.father].filter(Boolean)))`
(line 75): every truthy parent reference, deduplicated in first-mention
order. -/
def mentionedIds (people : List Person) : List String :=
  dedupFirst (people.flatMap (fun p => truthy p.mother ++ truthy p.father))

/-- One iteration of the stage-2 `forEach` (lines 78–90): a truthy id not
yet registered gets a stub person appended. -/
def stubStep (acc : List Person) (i : String) : List Person :=
  if i = "" then acc
  else if acc.any (fun p => p.id = i) then acc
  else acc ++ [{ id := i, name := i, mother := none, father := none,
                 children := [], hasParentsSection := false, gender := none }]

/-- Stage 2 of `loadPeople` (lines 78–90): for each mentioned id that is
truthy and not yet registered, append a stub person.  The membership test
runs against the accumulated list, so ids appended earlier in the loop
also count as registered. -/
def addStubs (people : List Person) (ids : List String) : List Person :=
  ids.foldl stubStep people

/-- Stages 1 and 2 of `loadPeople`: the complete reconciled entity set,
before links are built. -/
def reconcile (docs : List Doc) : List Person :=
  addStubs (stage1 docs) (mentionedIds (stage1 docs))

/-- `parent.children.push(person.id)` (line 153): the person holding id
`parentId` gains `childId` at the end of its child list.  In the source
the push goes through `peopleMap`, whose entries alias the list elements;
after reconciliation ids are keys of that map, so the update targets the
person with the matching id. -/
def pushChild (people : List Person) (parentId childId : String) : List Person :=
  people.map (fun q =>
    if q.id = parentId then { q with children := q.children ++ [childId] } else q)

/-- One arm of the `[person.mother, person.father].forEach` loop
(lines 149–155): `if (parentId && peopleMap.has(parentId))` — the id must
be non-null, truthy (non-empty), and present in the map built from the
entity set — and then the child is pushed. -/
def linkParent (orig acc : List Person) (parentId : Option String) (childId : String) :
    List Person :=
  match parentId with
  | none => acc
  | some pid =>
    if pid ≠ "" ∧ orig.any (fun q => q.id = pid) then pushChild acc pid childId
    else acc

/-- Processing of one person by `buildFamilyLinks`: mother first, then
father (the array literal `[person.mother, person.father]`). -/
def linkStep (orig acc : List Person) (person : Person) : List Person :=
  linkParent orig (linkParent orig acc person.mother person.id) person.father person.id

/-- `buildFamilyLinks` of `main (copy).ts` (lines 140–162): iterate over the
entity set, appending each person's id to the child list of each of its
(resolvable, truthy) parents.  The iteration reads only the `id`,
`mother` and `father` fields, which no push modifies, so folding the
pushes over the list in order is the mutation's effect. -/
def buildFamilyLinks (people : List Person) : List Person :=
  people.foldl (linkStep people) people

/-- `loadPeople` of `main (copy).ts` (lines 33–98): parse and register the
declared people (stage 1), add missing parents as stubs (stage 2), then
build the parent/child links (stage 3). -/
def loadPeople (docs : List Doc) : List Person :=
  buildFamilyLinks (reconcile docs)

/-- `determineGender` of `main (copy).ts` (lines 355–367): relationship-role
evidence first (mother evidence wins on a tie, falling back to the
already-stored gender, which is absent for every person `loadPeople`
produces), then the а/я name-ending heuristic on the lower-cased name. -/
def determineGender (person : Person) (allPeople : List Person) : Gender :=
  let isMother := allPeople.any (fun p => p.mother = some person.id)
  let isFather := allPeople.any (fun p => p.father = some person.id)
  if isMother ∧ isFather then person.gender.getD Gender.female
  else if isMother then Gender.female
  else if isFather then Gender.male
  else
    let nameLower := person.name.data.map lowerRu
    if nameLower.getLast? = some 'а' ∨ nameLower.getLast? = some 'я' then
      Gender.female
    else Gender.male

/-- The ids appended to the child list of the person with id `pid` by the
`linkParent` arm for one parent field (`field`) of a person with id
`cid`, with `orig` the entity set the person map was built from. -/
def parentGain (orig : List Person) (pid : String) (field : Option String)
    (cid : String) : List String :=
  match field with
  | none => []
  | some m =>
    if m ≠ "" ∧ orig.any (fun q => q.id = m) ∧ m = pid then [cid] else []

/-- All ids appended to the child list of the person with id `pid` when
`buildFamilyLinks` processes the people `ps` (in processing order). -/
def gain (orig ps : List Person) (pid : String) : List String :=
  ps.flatMap (fun e => parentGain orig pid e.mother e.id ++ parentGain orig pid e.father e.id)

/-! ### The closed form of `buildFamilyLinks` -/

theorem linkParent_eq (orig acc : List Person) (f : Option String) (cid : String) :
    linkParent orig acc f cid =
      acc.map (fun q => { q with children := q.children ++ parentGain orig q.id f cid }) := by
  cases f with
  | none =>
    simp [linkParent, parentGain]
  | some m =>
    by_cases h : m ≠ "" ∧ orig.any (fun q => q.id = m)
    · rw [linkParent, if_pos h]
      unfold pushChild
      apply List.map_congr_left
      intro q _
      by_cases hq : q.id = m
      · rw [if_pos hq, parentGain, if_pos ⟨h.1, h.2, hq.symm⟩]
      · rw [if_neg hq, parentGain,
          if_neg (fun hc => hq (hc.2.2.symm))]
        simp
    · rw [linkParent, if_neg h]
      have hg : ∀ q : Person, parentGain orig q.id (some m) cid = [] := by
        intro q
        rw [parentGain, if_neg (fun hc => h ⟨hc.1, hc.2.1⟩)]
      have : (fun q : Person => { q with children := q.children ++ parentGain orig q.id (some m) cid }) = id := by
        funext q
        rw [hg q]
        simp
      rw [this, List.map_id]

theorem foldl_linkStep_eq (orig : List Person) :
    ∀ (ps acc : List Person),
      ps.foldl (linkStep orig) acc =
        acc.map (fun q => { q with children := q.children ++ gain orig ps q.id })
  | [], acc => by
    simp [gain]
  | e :: ps, acc => by
    rw [List.foldl_cons, foldl_linkStep_eq orig ps (linkStep orig acc e)]
    unfold linkStep
    rw [linkParent_eq, linkParent_eq, List.map_map, List.map_map]
    apply List.map_congr_left
    intro q _
    simp [gain, Function.comp, List.append_assoc]

/-- `buildFamilyLinks` as a pure per-person update: every person keeps all
its fields, with `gain` appended to its child list. -/
theorem buildFamilyLinks_eq (people : List Person) :
    buildFamilyLinks people =
      people.map (fun q => { q with children := q.children ++ gain people people q.id }) :=
  foldl_linkStep_eq people people people

/-! ### Membership and counting in `gain` -/

theorem mem_parentGain {orig : List Person} {pid : String} {f : Option String}
    {cid x : String} :
    x ∈ parentGain orig pid f cid ↔
      x = cid ∧ f = some pid ∧ pid ≠ "" ∧ (orig.any (fun q => q.id = pid)) = true := by
  cases f with
  | none => simp [parentGain]
  | some m =>
    simp only [parentGain]
    split
    next h =>
      obtain ⟨h1, h2, h3⟩ := h
      subst h3
      simp [h1, h2]
    next h =>
      simp only [List.not_mem_nil, false_iff]
      rintro ⟨rfl, hsome, hne, hany⟩
      rw [Option.some.injEq] at hsome
      subst hsome
      exact h ⟨hne, hany, rfl⟩

theorem mem_gain {orig ps : List Person} {pid x : String} :
    x ∈ gain orig ps pid ↔
      ∃ e ∈ ps, e.id = x ∧ pid ≠ "" ∧ (orig.any (fun q => q.id = pid)) = true ∧
        (e.mother = some pid ∨ e.father = some pid) := by
  unfold gain
  rw [List.mem_flatMap]
  constructor
  · rintro ⟨e, he, hx⟩
    rw [List.mem_append, mem_parentGain, mem_parentGain] at hx
    rcases hx with ⟨rfl, hf, hne, hany⟩ | ⟨rfl, hf, hne, hany⟩
    · exact ⟨e, he, rfl, hne, hany, Or.inl hf⟩
    · exact ⟨e, he, rfl, hne, hany, Or.inr hf⟩
  · rintro ⟨e, he, rfl, hne, hany, hpar⟩
    refine ⟨e, he, ?_⟩
    rw [List.mem_append, mem_parentGain, mem_parentGain]
    rcases hpar with hm | hf
    · exact Or.inl ⟨rfl, hm, hne, hany⟩
    · exact Or.inr ⟨rfl, hf, hne, hany⟩

theorem count_parentGain (orig : List Person) (m : String) (hm : m ≠ "")
    (ha : (orig.any (fun q => q.id = m)) = true) (f : Option String) (cid x : String) :
    (parentGain orig m f cid).count x = if f = some m ∧ x = cid then 1 else 0 := by
  cases f with
  | none => simp [parentGain]
  | some mm =>
    simp only [parentGain]
    split
    next h =>
      obtain ⟨-, -, h3⟩ := h
      subst h3
      by_cases hx : x = cid
      · subst hx
        simp
      · simp [hx]
    next h =>
      have hmm : mm ≠ m := by
        intro hc
        subst hc
        exact h ⟨hm, ha, rfl⟩
      have hc : ¬ (mm = m ∧ x = cid) := fun hcc => hmm hcc.1
      simp [hc]

theorem count_gain_eq_zero {orig ps : List Person} {m x : String}
    (h : ∀ e ∈ ps, e.id ≠ x) :
    (gain orig ps m).count x = 0 := by
  rw [List.count_eq_zero]
  rw [mem_gain]
  rintro ⟨e, he, hid, -⟩
  exact h e he hid

theorem count_gain {orig ps : List Person} {m : String} (hm : m ≠ "")
    (ha : (orig.any (fun q => q.id = m)) = true)
    (hnd : (ps.map Person.id).Nodup) {e : Person} (he : e ∈ ps) :
    (gain orig ps m).count e.id =
      (if e.mother = some m then 1 else 0) + (if e.father = some m then 1 else 0) := by
  induction ps with
  | nil => cases he
  | cons c ps ih =>
    rw [List.map_cons, List.nodup_cons] at hnd
    have hstep : gain orig (c :: ps) m =
        (parentGain orig m c.mother c.id ++ parentGain orig m c.father c.id) ++
          gain orig ps m := by
      simp [gain]
    rw [hstep, List.count_append, List.count_append]
    rcases List.mem_cons.mp he with rfl | he'
    · have hz : (gain orig ps m).count e.id = 0 := by
        apply count_gain_eq_zero
        intro p hp hid
        apply hnd.1
        rw [← hid]
        exact List.mem_map_of_mem Person.id hp
      rw [count_parentGain orig m hm ha, count_parentGain orig m hm ha, hz]
      by_cases h1 : e.mother = some m <;> by_cases h2 : e.father = some m <;>
        simp [h1, h2]
    · have hcid : c.id ≠ e.id := by
        intro hc
        apply hnd.1
        rw [hc]
        exact List.mem_map_of_mem Person.id he'
      rw [count_parentGain orig m hm ha, count_parentGain orig m hm ha,
        ih hnd.2 he']
      have hx : ¬ (e.id = c.id) := fun hc => hcid hc.symm
      simp [hx]

/-! ### Structure of the reconciled entity set -/

theorem mem_stage1 {docs : List Doc} {p : Person} (hp : p ∈ stage1 docs) :
    ∃ d ∈ docs, (parseParents d.content).hasSection = true ∧
      p = { id := d.basename, name := d.basename,
            mother := (parseParents d.content).mother,
            father := (parseParents d.content).father, children := [],
            hasParentsSection := true, gender := none } := by
  unfold stage1 at hp
  rw [List.mem_filterMap] at hp
  obtain ⟨d, hd, hder⟩ := hp
  unfold declaredOf at hder
  split at hder
  next h =>
    exact ⟨d, hd, h, (Option.some.inj hder).symm⟩
  next h =>
    cases hder

theorem stage1_mem_of {docs : List Doc} {d : Doc} (hd : d ∈ docs)
    (h : (parseParents d.content).hasSection = true) :
    ({ id := d.basename, name := d.basename,
       mother := (parseParents d.content).mother,
       father := (parseParents d.content).father, children := [],
       hasParentsSection := true, gender := none } : Person) ∈ stage1 docs := by
  unfold stage1
  rw [List.mem_filterMap]
  exact ⟨d, hd, by unfold declaredOf; rw [if_pos h]⟩

theorem addStubs_nil (acc : List Person) : addStubs acc [] = acc := rfl

theorem addStubs_cons (acc : List Person) (i : String) (ids : List String) :
    addStubs acc (i :: ids) = addStubs (stubStep acc i) ids := rfl

theorem mem_stubStep {acc : List Person} {i : String} {q : Person}
    (hq : q ∈ stubStep acc i) :
    q ∈ acc ∨ (q.mother = none ∧ q.father = none ∧ q.children = [] ∧
      q.hasParentsSection = false ∧ q.gender = none) := by
  unfold stubStep at hq
  split at hq
  · exact Or.inl hq
  split at hq
  · exact Or.inl hq
  · rcases List.mem_append.mp hq with h | h
    · exact Or.inl h
    · rcases List.mem_singleton.mp h with rfl
      exact Or.inr ⟨rfl, rfl, rfl, rfl, rfl⟩

theorem mem_addStubs {ids : List String} :
    ∀ {acc : List Person} {q : Person}, q ∈ addStubs acc ids →
      q ∈ acc ∨ (q.mother = none ∧ q.father = none ∧ q.children = [] ∧
        q.hasParentsSection = false ∧ q.gender = none) := by
  induction ids with
  | nil =>
    intro acc q hq
    exact Or.inl hq
  | cons i ids ih =>
    intro acc q hq
    rw [addStubs_cons] at hq
    rcases ih hq with h | h
    · exact mem_stubStep h
    · exact Or.inr h

theorem addStubs_mono {ids : List String} :
    ∀ {acc : List Person} {q : Person}, q ∈ acc → q ∈ addStubs acc ids := by
  induction ids with
  | nil =>
    intro acc q hq
    exact hq
  | cons i ids ih =>
    intro acc q hq
    rw [addStubs_cons]
    apply ih
    unfold stubStep
    split
    · exact hq
    split
    · exact hq
    · exact List.mem_append_left _ hq

theorem addStubs_covers {ids : List String} :
    ∀ {acc : List Person} {i : String}, i ∈ ids → i ≠ "" →
      ∃ q ∈ addStubs acc ids, q.id = i := by
  induction ids with
  | nil =>
    intro acc i hi
    cases hi
  | cons j ids ih =>
    intro acc i hi hne
    rcases List.mem_cons.mp hi with rfl | hi'
    · rw [addStubs_cons]
      unfold stubStep
      rw [if_neg hne]
      split
      case isTrue h =>
        obtain ⟨q, hq, hqid⟩ := List.any_eq_true.mp h
        exact ⟨q, addStubs_mono hq, of_decide_eq_true hqid⟩
      case isFalse h =>
        refine ⟨_, addStubs_mono (List.mem_append_right _ (List.mem_singleton.mpr rfl)), rfl⟩
    · rw [addStubs_cons]
      exact ih hi' hne

theorem mem_dedup_foldl (l : List String) :
    ∀ (acc : List String) (x : String),
      x ∈ l.foldl dedupStep acc ↔ x ∈ acc ∨ x ∈ l := by
  induction l with
  | nil =>
    intro acc x
    simp
  | cons s l ih =>
    intro acc x
    rw [List.foldl_cons, ih]
    unfold dedupStep
    split
    case isTrue h =>
      constructor
      · rintro (hx | hx)
        · exact Or.inl hx
        · exact Or.inr (List.mem_cons_of_mem s hx)
      · rintro (hx | hx)
        · exact Or.inl hx
        · rcases List.mem_cons.mp hx with rfl | hx'
          · exact Or.inl h
          · exact Or.inr hx'
    case isFalse h =>
      rw [List.mem_append, List.mem_singleton, List.mem_cons]
      constructor
      · rintro ((hx | rfl) | hx)
        · exact Or.inl hx
        · exact Or.inr (Or.inl rfl)
        · exact Or.inr (Or.inr hx)
      · rintro (hx | rfl | hx)
        · exact Or.inl (Or.inl hx)
        · exact Or.inl (Or.inr rfl)
        · exact Or.inr hx

theorem mem_truthy {f : Option String} {x : String} :
    x ∈ truthy f ↔ f = some x ∧ x ≠ "" := by
  cases f with
  | none => simp [truthy]
  | some s =>
    simp only [truthy]
    split
    next h =>
      subst h
      simp only [List.not_mem_nil, false_iff]
      rintro ⟨hs, hne⟩
      exact hne (Option.some.inj hs).symm
    next h =>
      rw [List.mem_singleton]
      constructor
      · rintro rfl
        exact ⟨rfl, h⟩
      · rintro ⟨hs, -⟩
        exact (Option.some.inj hs).symm

theorem mem_mentionedIds {people : List Person} {x : String} :
    x ∈ mentionedIds people ↔
      (∃ p ∈ people, (p.mother = some x ∨ p.father = some x)) ∧ x ≠ "" := by
  unfold mentionedIds dedupFirst
  rw [mem_dedup_foldl]
  simp only [List.not_mem_nil, false_or, List.mem_flatMap, List.mem_append, mem_truthy]
  constructor
  · rintro ⟨p, hp, ⟨hm, hne⟩ | ⟨hf, hne⟩⟩
    · exact ⟨⟨p, hp, Or.inl hm⟩, hne⟩
    · exact ⟨⟨p, hp, Or.inr hf⟩, hne⟩
  · rintro ⟨⟨p, hp, hm | hf⟩, hne⟩
    · exact ⟨p, hp, Or.inl ⟨hm, hne⟩⟩
    · exact ⟨p, hp, Or.inr ⟨hf, hne⟩⟩

theorem stage1_ids (docs : List Doc) :
    (stage1 docs).map Person.id =
      (docs.filter (fun d => (parseParents d.content).hasSection)).map Doc.basename := by
  induction docs with
  | nil => rfl
  | cons d docs ih =>
    by_cases h : (parseParents d.content).hasSection = true
    · simp [stage1, List.filterMap_cons, List.filter_cons, declaredOf, h] at ih ⊢
      exact ih
    · simp [stage1, List.filterMap_cons, List.filter_cons, declaredOf, h] at ih ⊢
      exact ih

theorem stubStep_ids_nodup {acc : List Person} {i : String}
    (h : (acc.map Person.id).Nodup) : ((stubStep acc i).map Person.id).Nodup := by
  unfold stubStep
  split
  · exact h
  split
  next hany => exact h
  next hne hany =>
    rw [List.map_append]
    rw [List.nodup_append]
    refine ⟨h, List.nodup_singleton i, ?_⟩
    intro a ha hb
    rw [List.map_singleton, List.mem_singleton] at hb
    subst hb
    rw [List.mem_map] at ha
    obtain ⟨p, hp, hpi⟩ := ha
    exact hany (List.any_eq_true.mpr ⟨p, hp, by simp [hpi]⟩)

theorem addStubs_ids_nodup {ids : List String} :
    ∀ {acc : List Person}, (acc.map Person.id).Nodup →
      ((addStubs acc ids).map Person.id).Nodup := by
  induction ids with
  | nil =>
    intro acc h
    exact h
  | cons i ids ih =>
    intro acc h
    rw [addStubs_cons]
    exact ih (stubStep_ids_nodup h)

/-- Unique document base names yield unique entity ids: stage 1 copies base
names in order, and stage 2 only appends ids that are not yet present. -/
theorem reconcile_ids_nodup {docs : List Doc} (h : (docs.map Doc.basename).Nodup) :
    ((reconcile docs).map Person.id).Nodup := by
  unfold reconcile
  apply addStubs_ids_nodup
  rw [stage1_ids]
  exact List.Nodup.sublist (List.Sublist.map Doc.basename (List.filter_sublist docs)) h

theorem reconcile_children_eq_nil {docs : List Doc} {p : Person}
    (hp : p ∈ reconcile docs) : p.children = [] := by
  rcases mem_addStubs hp with h | h
  · obtain ⟨d, -, -, rfl⟩ := mem_stage1 h
    rfl
  · exact h.2.2.1

theorem reconcile_gender_eq_none {docs : List Doc} {p : Person}
    (hp : p ∈ reconcile docs) : p.gender = none := by
  rcases mem_addStubs hp with h | h
  · obtain ⟨d, -, -, rfl⟩ := mem_stage1 h
    rfl
  · exact h.2.2.2.2

theorem buildFamilyLinks_ids (people : List Person) :
    (buildFamilyLinks people).map Person.id = people.map Person.id := by
  rw [buildFamilyLinks_eq, List.map_map]
  rfl

theorem any_id_eq_buildFamilyLinks (ps : List Person) (m : String) :
    ((buildFamilyLinks ps).any (fun q => q.id = m)) = (ps.any (fun q => q.id = m)) := by
  rw [buildFamilyLinks_eq, List.any_map]
  rfl

theorem flatMap_map_eq_of (ps : List Person) (f : Person → Person)
    (g : Person → List String) (hfg : ∀ p, g (f p) = g p) :
    (ps.map f).flatMap g = ps.flatMap g := by
  induction ps with
  | nil => rfl
  | cons p ps ih =>
    rw [List.map_cons, List.flatMap_cons, List.flatMap_cons, hfg, ih]

/-- A second run of the Link Builder pushes exactly the same ids onto each
person's child list as the first: `gain` reads only the `id`, `mother`
and `father` fields and the presence of ids in the map, all of which the
first run leaves untouched. -/
theorem gain_buildFamilyLinks (ps : List Person) (pid : String) :
    gain (buildFamilyLinks ps) (buildFamilyLinks ps) pid = gain ps ps pid := by
  have h1 : ∀ (field : Option String) (cid : String),
      parentGain (buildFamilyLinks ps) pid field cid = parentGain ps pid field cid := by
    intro field cid
    cases field with
    | none => rfl
    | some mm => simp only [parentGain, any_id_eq_buildFamilyLinks]
  unfold gain
  simp only [h1]
  rw [buildFamilyLinks_eq]
  exact flatMap_map_eq_of ps _ _ (fun p => rfl)

theorem mem_loadPeople {docs : List Doc} {q : Person} :
    q ∈ loadPeople docs ↔
      ∃ q0 ∈ reconcile docs,
        q = { q0 with
              children := q0.children ++ gain (reconcile docs) (reconcile docs) q0.id } := by
  unfold loadPeople
  rw [buildFamilyLinks_eq, List.mem_map]
  constructor
  · rintro ⟨q0, hq0, rfl⟩
    exact ⟨q0, hq0, rfl⟩
  · rintro ⟨q0, hq0, rfl⟩
    exact ⟨q0, hq0, rfl⟩

theorem eq_of_mem_of_id_eq :
    ∀ {ps : List Person}, (ps.map Person.id).Nodup →
      ∀ {a b : Person}, a ∈ ps → b ∈ ps → a.id = b.id → a = b := by
  intro ps
  induction ps with
  | nil =>
    intro _ a b ha
    cases ha
  | cons c ps ih =>
    intro h a b ha hb hid
    rw [List.map_cons, List.nodup_cons] at h
    rcases List.mem_cons.mp ha with rfl | ha' <;> rcases List.mem_cons.mp hb with rfl | hb'
    · rfl
    · exact absurd (by rw [hid]; exact List.mem_map_of_mem Person.id hb') h.1
    · exact absurd (by rw [← hid]; exact List.mem_map_of_mem Person.id ha') h.1
    · exact ih h.2 ha' hb' hid

theorem any_id_of_mem {ps : List Person} {q : Person} (hq : q ∈ ps) :
    (ps.any (fun p => p.id = q.id)) = true :=
  List.any_eq_true.mpr ⟨q, hq, by simp⟩

/-! ### Lemmas about the section matcher -/

theorem wsThenNl_mem : ∀ {cs r : List Char}, wsThenNl cs = some r → '\n' ∈ cs := by
  intro cs
  induction cs with
  | nil =>
    intro r h
    cases h
  | cons c cs ih =>
    intro r h
    by_cases hc : c = '\n'
    · rw [hc]
      exact List.mem_cons_self '\n' cs
    · rw [wsThenNl, if_neg hc] at h
      split at h
      · exact List.mem_cons_of_mem c (ih h)
      · cases h

theorem matchFullHeadingAt_markerAt {cs r : List Char}
    (h : matchFullHeadingAt cs = some r) : headingPrefixAt cs = true := by
  unfold matchFullHeadingAt at h
  unfold headingPrefixAt
  cases hma : matchHeadingAt cs with
  | none =>
    rw [hma] at h
    cases h
  | some rest =>
    rfl

theorem matchFullHeadingAt_nl {cs r : List Char}
    (h : matchFullHeadingAt cs = some r) : headingNlAt cs = true := by
  unfold matchFullHeadingAt at h
  unfold headingNlAt
  cases hma : matchHeadingAt cs with
  | none =>
    rw [hma] at h
    cases h
  | some rest =>
    rw [hma] at h
    exact decide_eq_true (wsThenNl_mem h)

theorem findHeadingAux_marker :
    ∀ {cs r : List Char}, findHeadingAux cs = some r → hasHeadingMarkerAux cs = true := by
  intro cs
  induction cs with
  | nil =>
    intro r h
    cases h
  | cons c cs ih =>
    intro r h
    rw [findHeadingAux] at h
    rw [hasHeadingMarkerAux]
    by_cases hc : c = '\n'
    · rw [if_pos hc] at h
      rw [if_pos hc]
      split at h
      next hma =>
        rw [matchFullHeadingAt_markerAt hma]
        rfl
      next hma =>
        rw [ih h, Bool.or_true]
    · rw [if_neg hc] at h
      rw [if_neg hc]
      rw [ih h, Bool.or_true]

theorem findHeadingAux_nl :
    ∀ {cs r : List Char}, findHeadingAux cs = some r → headingNlScanAux cs = true := by
  intro cs
  induction cs with
  | nil =>
    intro r h
    cases h
  | cons c cs ih =>
    intro r h
    rw [findHeadingAux] at h
    rw [headingNlScanAux]
    by_cases hc : c = '\n'
    · rw [if_pos hc] at h
      rw [if_pos hc]
      split at h
      next hma =>
        rw [matchFullHeadingAt_nl hma]
        rfl
      next hma =>
        rw [ih h, Bool.or_true]
    · rw [if_neg hc] at h
      rw [if_neg hc]
      rw [ih h, Bool.or_true]

theorem findHeading_marker {cs r : List Char} (h : findHeading cs = some r) :
    hasHeadingMarker cs = true := by
  rw [findHeading] at h
  rw [hasHeadingMarker]
  split at h
  next hma =>
    rw [matchFullHeadingAt_markerAt hma]
    rfl
  next hma =>
    rw [findHeadingAux_marker h, Bool.or_true]

theorem findHeading_nl {cs r : List Char} (h : findHeading cs = some r) :
    headingNl cs = true := by
  rw [findHeading] at h
  rw [headingNl]
  split at h
  next hma =>
    rw [matchFullHeadingAt_nl hma]
    rfl
  next hma =>
    rw [findHeadingAux_nl h, Bool.or_true]

/-- A document with no heading marker parses to the empty result. -/
theorem parseParents_of_no_marker {s : String}
    (h : hasHeadingMarker s.data = false) :
    parseParents s = { mother := none, father := none, hasSection := false } := by
  unfold parseParents
  cases hf : findParentsSection s.data with
  | none => rfl
  | some block =>
    exfalso
    unfold findParentsSection at hf
    cases hh : findHeading s.data with
    | none =>
      rw [hh] at hf
      cases hf
    | some r =>
      rw [findHeading_marker hh] at h
      cases h

/-- A document in which no heading marker is followed by a newline parses
to the empty result. -/
theorem parseParents_of_no_nl {s : String}
    (h : headingNl s.data = false) :
    parseParents s = { mother := none, father := none, hasSection := false } := by
  unfold parseParents
  cases hf : findParentsSection s.data with
  | none => rfl
  | some block =>
    exfalso
    unfold findParentsSection at hf
    cases hh : findHeading s.data with
    | none =>
      rw [hh] at hf
      cases hf
    | some r =>
      rw [findHeading_nl hh] at h
      cases h

/-- The captured section never contains a newline directly followed by a
`#`. -/
theorem takeSection_no_nl_hash :
    ∀ (cs l r : List Char), takeSection cs ≠ l ++ '\n' :: '#' :: r := by
  intro cs
  induction cs with
  | nil =>
    intro l r h
    rw [takeSection] at h
    simp at h
  | cons c cs ih =>
    intro l r h
    rw [takeSection] at h
    split at h
    · simp at h
    next hcond =>
      cases l with
      | nil =>
        rw [List.nil_append] at h
        injection h with h1 h2
        apply hcond
        refine ⟨h1, ?_⟩
        cases cs with
        | nil => cases h2
        | cons c2 cs2 =>
          rw [takeSection] at h2
          split at h2
          · cases h2
          · injection h2 with h3 h4
            rw [List.head?_cons, h3]
      | cons x l2 =>
        rw [List.cons_append] at h
        injection h with h1 h2
        exact ih l2 r h2

/-! ### Lemmas for the bracket capture and the alias split -/

theorem splitPipeHead_eq_takeWhile :
    ∀ cs : List Char, splitPipeHead cs = cs.takeWhile (fun c => c != '|') := by
  intro cs
  induction cs with
  | nil => rfl
  | cons c cs ih =>
    rw [splitPipeHead, List.takeWhile_cons]
    by_cases h : c = '|'
    · subst h
      simp
    · simp [h, ih]

theorem takeSection_append_nl :
    ∀ {xs : List Char}, '\n' ∉ xs → takeSection (xs ++ ['\n']) = xs ++ ['\n'] := by
  intro xs
  induction xs with
  | nil =>
    intro _
    rfl
  | cons x xs ih =>
    intro h
    have hx : ¬ (x = '\n' ∧ (xs ++ ['\n']).head? = some '#') := by
      rintro ⟨rfl, -⟩
      exact h (List.mem_cons_self '\n' xs)
    rw [List.cons_append, takeSection, if_neg hx,
      ih (fun hc => h (List.mem_cons_of_mem x hc))]

theorem matchBracketCapture_append {raw : List Char}
    (h : ∀ c ∈ raw, c ≠ ']' ∧ isLineTerm c = false) (rest : List Char) :
    matchBracketCapture (raw ++ ']' :: ']' :: rest) = some raw := by
  induction raw with
  | nil => rfl
  | cons c raw ih =>
    obtain ⟨hc, hlt⟩ := h c (List.mem_cons_self c raw)
    have ih2 := ih (fun x hx => h x (List.mem_cons_of_mem c hx))
    cases raw with
    | nil =>
      rw [List.nil_append] at ih2
      rw [List.cons_append, List.nil_append, matchBracketCapture,
        if_neg (fun hcc => hc hcc.1), if_neg (by rw [hlt]; exact Bool.false_ne_true),
        ih2]
      rfl
    | cons c2 raw2 =>
      rw [List.cons_append, List.cons_append, matchBracketCapture,
        if_neg (fun hcc => hc hcc.1), if_neg (by rw [hlt]; exact Bool.false_ne_true)]
      rw [List.cons_append] at ih2
      rw [ih2]
      rfl

/-! ### The claims -/

/-- C8: for every parent line whose double-bracketed reference contains a
pipe character, the Relationship Parser returns as the canonical parent id
only the portion of the reference before the first pipe, with surrounding
whitespace trimmed.  Stated for an arbitrary reference `raw` (made of
characters the lazy bracket capture can consume, i.e. no `]` and no line
terminator) spliced into a canonical mother line. -/
theorem C8_pipe_alias (raw : List Char)
    (hraw : ∀ c ∈ raw, c ≠ ']' ∧ isLineTerm c = false)
    (hpipe : '|' ∈ raw) :
    (parseParents (String.mk ("# Родители\n- Мать: [[".data ++ (raw ++ "]]\n".data)))).mother
      = some (String.mk (jsTrim (raw.takeWhile (fun c => c != '|')))) := by
  have hnlraw : '\n' ∉ raw := by
    intro hc
    have h2 := (hraw '\n' hc).2
    rw [isLineTerm] at h2
    simp at h2
  have h1 : findHeading ("# Родители\n- Мать: [[".data ++ (raw ++ "]]\n".data))
      = some ("- Мать: [[".data ++ (raw ++ "]]\n".data)) := rfl
  have hassoc : "- Мать: [[".data ++ (raw ++ "]]\n".data)
      = ("- Мать: [[".data ++ (raw ++ "]]".data)) ++ ['\n'] := by
    have h2 : "]]\n".data = "]]".data ++ ['\n'] := rfl
    rw [h2, List.append_assoc, List.append_assoc]
  have hnomem : '\n' ∉ "- Мать: [[".data ++ (raw ++ "]]".data) := by
    intro hc
    rcases List.mem_append.mp hc with hc1 | hc2
    · revert hc1
      decide
    · rcases List.mem_append.mp hc2 with hc3 | hc4
      · exact hnlraw hc3
      · revert hc4
        decide
  have hsec : findParentsSection ("# Родители\n- Мать: [[".data ++ (raw ++ "]]\n".data))
      = some ("- Мать: [[".data ++ (raw ++ "]]\n".data)) := by
    unfold findParentsSection
    rw [h1]
    rw [Option.map_some', hassoc, takeSection_append_nl hnomem]
  have hmb : matchParentAt motherLabel ("- Мать: [[".data ++ (raw ++ "]]\n".data))
      = matchBracketCapture (raw ++ ']' :: ']' :: ['\n']) := rfl
  have hpar : findParent motherLabel ("- Мать: [[".data ++ (raw ++ "]]\n".data))
      = some raw := by
    unfold findParent
    rw [hmb, matchBracketCapture_append hraw ['\n']]
  have hne : ¬ ("- Мать: [[".data ++ (raw ++ "]]\n".data) = ([] : List Char)) := by
    intro hc
    rw [show "- Мать: [[".data = '-' :: " Мать: [[".data from rfl, List.cons_append] at hc
    cases hc
  unfold parseParents
  rw [show (String.mk ("# Родители\n- Мать: [[".data ++ (raw ++ "]]\n".data))).data
      = "# Родители\n- Мать: [[".data ++ (raw ++ "]]\n".data) from rfl]
  rw [hsec]
  dsimp only
  rw [if_neg hne]
  dsimp only
  rw [hpar, Option.map_some']
  rw [show extractId raw = jsTrim (splitPipeHead raw) from rfl,
    splitPipeHead_eq_takeWhile]

/-- C8 witness: the spec's own example, `[[Anna Ivanova|mom]]` yields
`Anna Ivanova`. -/
theorem C8_pipe_alias_witness :
    (parseParents (String.mk
        ("# Родители\n- Мать: [[".data ++ ("Anna Ivanova|mom".data ++ "]]\n".data)))).mother
      = some (String.mk (jsTrim ("Anna Ivanova|mom".data.takeWhile (fun c => c != '|')))) :=
  C8_pipe_alias "Anna Ivanova|mom".data (by decide) (by decide)

/-- C9: the Link Builder mutates only the `children` field: every entity
keeps its `id`, `name` (display name), `mother`, `father`,
`hasParentsSection` flag and `gender`, and no entity is added or removed
(the output is related to the input pointwise and has the same length). -/
theorem C9_frame (people : List Person) :
    List.Forall₂
      (fun p q => p.id = q.id ∧ p.name = q.name ∧ p.mother = q.mother ∧
        p.father = q.father ∧ p.hasParentsSection = q.hasParentsSection ∧
        p.gender = q.gender)
      people (buildFamilyLinks people) := by
  rw [buildFamilyLinks_eq, List.forall₂_map_right_iff, List.forall₂_same]
  intro p _
  exact ⟨rfl, rfl, rfl, rfl, rfl, rfl⟩

/-- C3 (amended): entity ids in the final set are unique provided the
documents' base names are unique; the Reconciler itself performs no
duplicate check. -/
theorem C3_unique_ids (docs : List Doc) (h : (docs.map Doc.basename).Nodup) :
    ((loadPeople docs).map Person.id).Nodup := by
  unfold loadPeople
  rw [buildFamilyLinks_ids]
  exact reconcile_ids_nodup h

/-- C3 witness: a singleton corpus has unique ids. -/
theorem C3_unique_ids_witness :
    ((loadPeople [⟨"A", "# Родители\n- Мать: [[M]]\n"⟩]).map Person.id).Nodup :=
  C3_unique_ids _ (by decide)

/-- C3 counterexample: two documents sharing the base name `A`, each with a
relationship section, both register — the final set holds two entities
with the same id, and no skip happens.  This falsifies the claimed
duplicate-skipping and id uniqueness. -/
theorem C3_cex :
    (loadPeople [⟨"A", "# Родители\n"⟩, ⟨"A", "# Родители\n"⟩]).map Person.id
        = ["A", "A"] ∧
      ¬ ((loadPeople [⟨"A", "# Родители\n"⟩, ⟨"A", "# Родители\n"⟩]).map
          Person.id).Nodup := by
  constructor
  · decide
  · decide

/-- C2 (amended): after the Reconciler completes, every non-null *and
non-empty* `motherId`/`fatherId` on every entity resolves to an entity
present in the set.  (The empty string — producible from an aliased empty
reference such as `[[|x]]` — is non-null but is dropped by the
truthiness filter, so it gets no stub; see the counterexample.) -/
theorem C2_parent_refs_resolve (docs : List Doc) (p : Person)
    (hp : p ∈ reconcile docs) :
    (∀ m, p.mother = some m → m ≠ "" → ∃ q ∈ reconcile docs, q.id = m) ∧
    (∀ f, p.father = some f → f ≠ "" → ∃ q ∈ reconcile docs, q.id = f) := by
  unfold reconcile at hp ⊢
  constructor
  · intro m hm hne
    rcases mem_addStubs hp with h | h
    · have hmem : m ∈ mentionedIds (stage1 docs) := by
        rw [mem_mentionedIds]
        exact ⟨⟨p, h, Or.inl hm⟩, hne⟩
      exact addStubs_covers hmem hne
    · rw [h.1] at hm
      cases hm
  · intro f hf hne
    rcases mem_addStubs hp with h | h
    · have hmem : f ∈ mentionedIds (stage1 docs) := by
        rw [mem_mentionedIds]
        exact ⟨⟨p, h, Or.inr hf⟩, hne⟩
      exact addStubs_covers hmem hne
    · rw [h.2.1] at hf
      cases hf

/-- C2 witness: the declared mother `M` of `C` resolves to the stub
entity created for it. -/
theorem C2_parent_refs_resolve_witness :
    ∃ q ∈ reconcile [⟨"C", "# Родители\n- Мать: [[M]]\n"⟩], q.id = "M" :=
  (C2_parent_refs_resolve [⟨"C", "# Родители\n- Мать: [[M]]\n"⟩]
      ⟨"C", "C", some "M", none, [], true, none⟩ (by decide)).1 "M" rfl (by decide)

/-- C2 counterexample: the mother line `- Мать: [[|m]]` parses to the
non-null empty-string id; the truthiness filter of stage 2 drops it, so
no stub is created and the non-null reference dangles, contradicting the
claim that every non-null parent reference resolves. -/
theorem C2_cex :
    ∃ p ∈ reconcile [⟨"Child", "# Родители\n- Мать: [[|m]]\n"⟩],
      ∃ m, p.mother = some m ∧
        ∀ q ∈ reconcile [⟨"Child", "# Родители\n- Мать: [[|m]]\n"⟩], q.id ≠ m := by
  decide

/-- C1 (amended): after the Link Builder runs once on the entity set
reconciled from a corpus with unique document base names, a parent entity
`q` with nonempty id `m` counts a child `e`'s id in its `childIds` exactly
once *per parent field of `e` naming `m`*: once when only the mother
field names `m`, once when only the father field does, and twice when
both do (the push is unconditional).  And the append is not idempotent:
a second invocation of the Link Builder on the already-linked set (entity
`q2`) appends the same ids again, doubling the count. -/
theorem C1_child_count (docs : List Doc) (e q q2 : Person) (m : String)
    (hnd : (docs.map Doc.basename).Nodup)
    (he : e ∈ reconcile docs) (hne : m ≠ "")
    (hq : q ∈ loadPeople docs) (hqid : q.id = m)
    (hq2 : q2 ∈ buildFamilyLinks (loadPeople docs)) (hq2id : q2.id = m) :
    q.children.count e.id =
        ((if e.mother = some m then 1 else 0) + (if e.father = some m then 1 else 0)) ∧
      q2.children.count e.id =
        2 * ((if e.mother = some m then 1 else 0) + (if e.father = some m then 1 else 0)) := by
  have hnd2 : ((reconcile docs).map Person.id).Nodup := reconcile_ids_nodup hnd
  rcases mem_loadPeople.mp hq with ⟨q0, hq0, rfl⟩
  have hq0id : q0.id = m := hqid
  have hany : ((reconcile docs).any (fun p => p.id = m)) = true := by
    rw [← hq0id]
    exact any_id_of_mem hq0
  have hch : q0.children = [] := reconcile_children_eq_nil hq0
  have hsingle : (gain (reconcile docs) (reconcile docs) m).count e.id =
      ((if e.mother = some m then 1 else 0) + (if e.father = some m then 1 else 0)) :=
    count_gain hne hany hnd2 he
  constructor
  · show (q0.children ++ gain (reconcile docs) (reconcile docs) q0.id).count e.id = _
    rw [hch, List.nil_append, hq0id, hsingle]
  · rw [buildFamilyLinks_eq] at hq2
    rcases List.mem_map.mp hq2 with ⟨q1, hq1, rfl⟩
    rcases mem_loadPeople.mp hq1 with ⟨q0', hq0', rfl⟩
    have hq0'id : q0'.id = m := hq2id
    have hch' : q0'.children = [] := reconcile_children_eq_nil hq0'
    have hgg : gain (loadPeople docs) (loadPeople docs) q0'.id
        = gain (reconcile docs) (reconcile docs) q0'.id := by
      unfold loadPeople
      exact gain_buildFamilyLinks (reconcile docs) q0'.id
    show ((q0'.children ++ gain (reconcile docs) (reconcile docs) q0'.id) ++
        gain (loadPeople docs) (loadPeople docs) q0'.id).count e.id = _
    rw [hgg, hch', List.nil_append, List.count_append, hq0'id, hsingle, two_mul]

/-- C1 witness: in the one-child corpus the stub mother's child list counts
the child once per naming field (mother only, so once) after one run, and
twice after a second run of the Link Builder. -/
theorem C1_child_count_witness :
    ((⟨"M", "M", none, none, ["C"], false, none⟩ : Person).children).count "C" =
        ((if (some "M" : Option String) = some "M" then 1 else 0) +
          (if (none : Option String) = some "M" then 1 else 0)) ∧
      ((⟨"M", "M", none, none, ["C", "C"], false, none⟩ : Person).children).count "C" =
        2 * ((if (some "M" : Option String) = some "M" then 1 else 0) +
          (if (none : Option String) = some "M" then 1 else 0)) :=
  C1_child_count [⟨"C", "# Родители\n- Мать: [[M]]\n"⟩]
    ⟨"C", "C", some "M", none, [], true, none⟩
    ⟨"M", "M", none, none, ["C"], false, none⟩
    ⟨"M", "M", none, none, ["C", "C"], false, none⟩ "M"
    (by decide) (by decide) (by decide) (by decide) (by decide) (by decide) (by decide)

/-- C1 counterexample: an entity naming the same person `P` as both mother
and father gets `C` appended to `P`'s child list twice — the claim's
"exactly once / at most one occurrence" fails because the push is not
guarded by a membership test. -/
theorem C1_cex :
    ∃ q ∈ loadPeople [⟨"C", "# Родители\n- Мать: [[P]]\n- Отец: [[P]]\n"⟩],
      q.id = "P" ∧ q.children.count "C" = 2 := by
  decide

/-- C4 (amended): after the Link Builder runs, an entity's `childIds`
contains its own id exactly when the entity (with a nonempty id) declares
itself as its own mother or father — self-parentage in the input text is
not filtered and does land in `childIds` (see the counterexample). -/
theorem C4_self_child_iff (docs : List Doc) (q : Person)
    (hnd : (docs.map Doc.basename).Nodup) (hq : q ∈ loadPeople docs) :
    q.id ∈ q.children ↔
      ((q.mother = some q.id ∨ q.father = some q.id) ∧ q.id ≠ "") := by
  rcases mem_loadPeople.mp hq with ⟨q0, hq0, rfl⟩
  have hnd2 := reconcile_ids_nodup hnd
  have hch := reconcile_children_eq_nil hq0
  show q0.id ∈ q0.children ++ gain (reconcile docs) (reconcile docs) q0.id ↔
      ((q0.mother = some q0.id ∨ q0.father = some q0.id) ∧ q0.id ≠ "")
  rw [hch, List.nil_append, mem_gain]
  constructor
  · rintro ⟨e, he, hid, hne, hany, hpar⟩
    have heq : e = q0 := eq_of_mem_of_id_eq hnd2 he hq0 hid
    subst heq
    exact ⟨hpar, hne⟩
  · rintro ⟨hpar, hne⟩
    exact ⟨q0, hq0, rfl, hne, any_id_of_mem hq0, hpar⟩

/-- C4 witness: the child `C` (which does not declare itself as a parent)
does not appear in its own child list. -/
theorem C4_self_child_iff_witness :
    ¬ (("C" : String) ∈ (⟨"C", "C", some "M", none, [], true, none⟩ : Person).children) := by
  have h := C4_self_child_iff [⟨"C", "# Родители\n- Мать: [[M]]\n"⟩]
    ⟨"C", "C", some "M", none, [], true, none⟩ (by decide) (by decide)
  intro hc
  rcases (h.mp hc).1 with hpar | hpar <;> exact absurd hpar (by decide)

/-- C4 counterexample: a document declaring itself as its own mother ends
up with its own id inside its `childIds`, contradicting the claim that
`childIds` never contains the entity's own id. -/
theorem C4_cex :
    ∃ q ∈ loadPeople [⟨"A", "# Родители\n- Мать: [[A]]\n"⟩], q.id ∈ q.children := by
  decide

/-- C5: any entity referenced by at least one other entity's `motherId`
is assigned female by `determineGender`, regardless of whether it is also
referenced as somebody's father — mother evidence takes precedence (on a
tie the stored gender would win, but every person `loadPeople` produces
has no stored gender, so the tie-break yields female). -/
theorem C5_mother_evidence_female (docs : List Doc) (e c : Person)
    (he : e ∈ loadPeople docs) (hc : c ∈ loadPeople docs)
    (hm : c.mother = some e.id) :
    determineGender e (loadPeople docs) = Gender.female := by
  have hgender : e.gender = none := by
    rcases mem_loadPeople.mp he with ⟨q0, hq0, rfl⟩
    show q0.gender = none
    exact reconcile_gender_eq_none hq0
  have hisM : ((loadPeople docs).any (fun p => p.mother = some e.id)) = true :=
    List.any_eq_true.mpr ⟨c, hc, by simp [hm]⟩
  by_cases hisF : ((loadPeople docs).any (fun p => p.father = some e.id)) = true
  · simp [determineGender, hisM, hisF, hgender]
  · simp [determineGender, hisM, hisF]

/-- C5 witness: `X`, referenced once as a mother (by `C1`) and once as a
father (by `C2`), resolves to female. -/
theorem C5_mother_evidence_female_witness :
    determineGender ⟨"X", "X", none, none, ["C1", "C2"], false, none⟩
      (loadPeople [⟨"C1", "# Родители\n- Мать: [[X]]\n"⟩,
        ⟨"C2", "# Родители\n- Отец: [[X]]\n"⟩]) = Gender.female :=
  C5_mother_evidence_female
    [⟨"C1", "# Родители\n- Мать: [[X]]\n"⟩, ⟨"C2", "# Родители\n- Отец: [[X]]\n"⟩]
    ⟨"X", "X", none, none, ["C1", "C2"], false, none⟩
    ⟨"C1", "C1", some "X", none, [], true, none⟩
    (by decide) (by decide) (by decide)

/-- C6: a document whose text contains no `Родители` heading marker parses
to `hasSection = false` with both parent ids null, and every declared
entity of the reconciled set (the main pass) stems from a document whose
content does have `hasSection = true` — so a section-less document never
produces a declared entity (it can only appear as a stub). -/
theorem C6_no_section_no_entity :
    (∀ s : String, hasHeadingMarker s.data = false →
      parseParents s = { mother := none, father := none, hasSection := false }) ∧
    (∀ (docs : List Doc) (p : Person), p ∈ reconcile docs →
      p.hasParentsSection = true →
      ∃ d ∈ docs, d.basename = p.id ∧ (parseParents d.content).hasSection = true) := by
  constructor
  · intro s h
    exact parseParents_of_no_marker h
  · intro docs p hp hdecl
    rcases mem_addStubs (show p ∈ addStubs (stage1 docs) (mentionedIds (stage1 docs)) from hp)
      with h | h
    · obtain ⟨d, hd, hsec2, rfl⟩ := mem_stage1 h
      exact ⟨d, hd, rfl, hsec2⟩
    · exact absurd hdecl (by simp [h.2.2.2.1])

/-- C6 witness: a document with no heading at all contributes nothing. -/
theorem C6_no_section_no_entity_witness :
    parseParents "hello" = { mother := none, father := none, hasSection := false } :=
  C6_no_section_no_entity.1 "hello" (by decide)

/-- C10: the heading regex requires the `Родители` label to be followed by
a newline (through `\s*\n`): when no heading marker of the document has a
newline anywhere after its label — in particular when the heading is the
last line of the text with no trailing newline — the parser reports
`hasSection = false` with both parent ids null. -/
theorem C10_no_trailing_newline (s : String) (h : headingNl s.data = false) :
    parseParents s = { mother := none, father := none, hasSection := false } :=
  parseParents_of_no_nl h

/-- C10 witness: `x\n## Родители` does contain a heading marker, yet with
no trailing newline the parser reports no section. -/
theorem C10_no_trailing_newline_witness :
    hasHeadingMarker "x\n## Родители".data = true ∧
      parseParents "x\n## Родители" =
        { mother := none, father := none, hasSection := false } :=
  ⟨by decide, C10_no_trailing_newline "x\n## Родители" (by decide)⟩

/-- C7 (amended): the captured relationship block never contains a newline
followed by a `#` — so a parent bullet placed after a heading line that
begins after at least one captured character is never parsed.  The one
exception forced by the regex (see the counterexample) is a heading line
*immediately* following the `Родители` heading: its leading newline is
consumed by the heading match itself, the heading line is captured as the
first line of the block, and bullets after it are still parsed. -/
theorem C7_block_stops_at_heading (s : String) (b l r : List Char)
    (hb : findParentsSection s.data = some b) :
    b ≠ l ++ '\n' :: '#' :: r := by
  unfold findParentsSection at hb
  cases hh : findHeading s.data with
  | none =>
    rw [hh] at hb
    cases hb
  | some t =>
    rw [hh, Option.map_some'] at hb
    rw [← Option.some.inj hb]
    exact takeSection_no_nl_hash t l r

/-- C7 witness: in `## Родители\nx\n# Y` the captured block is exactly
`x` — cut before the following heading line — and contains no
newline-`#` pair. -/
theorem C7_block_stops_at_heading_witness :
    (['x'] : List Char) ≠ [] ++ '\n' :: '#' :: [] :=
  C7_block_stops_at_heading "## Родители\nx\n# Y" ['x'] [] [] (by decide)

/-- C7 counterexample: a `Мать` bullet placed after the heading line
`# Заголовок` — a shallower heading than the `## Родители` one — is still
parsed, because `\s*\n` of the heading regex consumes the newline, so the
lookahead `(?=\n#|$)` never sees the newline before that immediately
following heading line.  This contradicts the claim that a bullet after a
subsequent heading of any level is not parsed. -/
theorem C7_cex :
    parseParents "## Родители\n# Заголовок\n- Мать: [[M]]" =
      { mother := some "M", father := none, hasSection := true } := by
  decide

end FamilyTree
